import Mathlib

/-!
Verification of the CatRacer typing-test core (cats.py).

Strings are modelled as `List Char`, Python integers as `Int` (word counts and
edit-operation counts, which are manifestly nonnegative, as `Nat`), Python
numeric division results as `ℚ`, and Python `math.inf` sentinels as `Option`
values where `none` plays the role of infinity.  A Python function that can
raise (failed `assert`, `IndexError`, `ZeroDivisionError`) is modelled as a
function into `Option`/`Except`.
-/

namespace CatRacer

/-! ## Edit-distance engine (Phase 2 of cats.py) -/

/-- `feline_fixes(typed, source, limit)` from cats.py: substitution-only
difference.  Returns 0 when the limit is exhausted (`limit < 0`); when either
suffix is empty returns `len(source) + len(typed)` (the leftover length, since
the other suffix is empty); on a head match recurses with the same limit; on a
head mismatch adds 1 and recurses with `limit - 1`. -/
def feline_fixes : List Char → List Char → Int → Nat
  | typed, source, limit =>
    if limit < 0 then 0
    else
      match typed, source with
      | [], s => s.length
      | t, [] => t.length
      | a :: t, b :: s =>
        if a = b then feline_fixes t s limit
        else 1 + feline_fixes t s (limit - 1)
termination_by t s _ => t.length + s.length

/-- `minimum_mewtations(start, goal, limit)` from cats.py: limit-pruned full
edit distance.  Returns 0 when `limit < 0`; when either suffix is empty returns
`len(goal) + len(start)`; on a head match recurses with the same limit; else
takes `1 + min(add, remove, substitute)` where each branch recurses with
`limit - 1`. -/
def minimum_mewtations : List Char → List Char → Int → Nat
  | start, goal, limit =>
    if limit < 0 then 0
    else
      match start, goal with
      | s, [] => s.length
      | [], g => g.length
      | a :: s, b :: g =>
        if b = a then minimum_mewtations s g limit
        else
          let add := minimum_mewtations (a :: s) g (limit - 1)
          let remove := minimum_mewtations s (b :: g) (limit - 1)
          let substitute := minimum_mewtations s g (limit - 1)
          1 + min add (min remove substitute)
termination_by s g _ => s.length + g.length

/-- The true edit distance (minimum number of single-character
insert/delete/substitute operations), written as the textbook Wagner-Fischer
recurrence with unit costs.  This is the specification-side yardstick for the
claims about `minimum_mewtations`; it is independent of any pruning limit. -/
def editDist : List Char → List Char → Nat
  | [], g => g.length
  | s, [] => s.length
  | a :: s, b :: g =>
    min ((if a = b then 0 else 1) + editDist s g)
      (min (1 + editDist s (b :: g)) (1 + editDist (a :: s) g))
termination_by s g => s.length + g.length

theorem editDist_nil_left (g : List Char) : editDist [] g = g.length := by
  rw [editDist]

theorem editDist_nil_right (s : List Char) : editDist s [] = s.length := by
  cases s <;> simp [editDist]

theorem editDist_cons_cons (a b : Char) (s g : List Char) :
    editDist (a :: s) (b :: g) =
      min ((if a = b then 0 else 1) + editDist s g)
        (min (1 + editDist s (b :: g)) (1 + editDist (a :: s) g)) := by
  rw [editDist]

/-- Prepending a character to the first argument raises the edit distance by
at most one (delete the prepended character first). -/
theorem editDist_cons_left_le (a : Char) (s g : List Char) :
    editDist (a :: s) g ≤ 1 + editDist s g := by
  cases g with
  | nil => rw [editDist_nil_right, editDist_nil_right]; simp only [List.length_cons]; omega
  | cons b g' =>
    rw [editDist_cons_cons]
    exact le_trans (min_le_right _ _) (min_le_left _ _)

/-- Prepending a character to the second argument raises the edit distance by
at most one. -/
theorem editDist_cons_right_le (b : Char) (s g : List Char) :
    editDist s (b :: g) ≤ 1 + editDist s g := by
  cases s with
  | nil => rw [editDist_nil_left, editDist_nil_left]; simp only [List.length_cons]; omega
  | cons a s' =>
    rw [editDist_cons_cons]
    exact le_trans (min_le_right _ _) (min_le_right _ _)

/-- Removing the head of the first argument lowers the edit distance by at
most one. -/
theorem editDist_le_cons_left (a : Char) (s : List Char) :
    ∀ g, editDist s g ≤ 1 + editDist (a :: s) g := by
  intro g
  induction g with
  | nil =>
    rw [editDist_nil_right, editDist_nil_right]
    simp only [List.length_cons]
    omega
  | cons b g' ih =>
    rw [editDist_cons_cons]
    have h1 : editDist s (b :: g') ≤ 1 + editDist s g' := editDist_cons_right_le b s g'
    by_cases hab : a = b
    · rw [if_pos hab]; omega
    · rw [if_neg hab]; omega

/-- Removing the head of the second argument lowers the edit distance by at
most one. -/
theorem editDist_le_cons_right (b : Char) (g : List Char) :
    ∀ s, editDist s g ≤ 1 + editDist s (b :: g) := by
  intro s
  induction s with
  | nil =>
    rw [editDist_nil_left, editDist_nil_left]
    simp only [List.length_cons]
    omega
  | cons a s' ih =>
    rw [editDist_cons_cons]
    have h1 : editDist (a :: s') g ≤ 1 + editDist s' g := editDist_cons_left_le a s' g
    by_cases hab : a = b
    · rw [if_pos hab]; omega
    · rw [if_neg hab]; omega

/-- Matching heads are free: the edit distance of `a :: s` and `a :: g` is the
edit distance of the tails. -/
theorem editDist_cons_cons_same (a : Char) (s g : List Char) :
    editDist (a :: s) (a :: g) = editDist s g := by
  rw [editDist_cons_cons]
  have h1 : editDist s g ≤ 1 + editDist s (a :: g) := editDist_le_cons_right a g s
  have h2 : editDist s g ≤ 1 + editDist (a :: s) g := editDist_le_cons_left a s g
  rw [if_pos rfl]
  omega

/-- With distinct heads, the edit distance satisfies the three-way minimum
recurrence. -/
theorem editDist_cons_cons_ne (a b : Char) (s g : List Char) (hab : a ≠ b) :
    editDist (a :: s) (b :: g) =
      1 + min (editDist s g) (min (editDist s (b :: g)) (editDist (a :: s) g)) := by
  rw [editDist_cons_cons, if_neg hab]
  omega

/-! Unfolding equations for the two limit-pruned distance functions. -/

theorem feline_fixes_neg (t s : List Char) (l : Int) (h : l < 0) :
    feline_fixes t s l = 0 := by
  rw [feline_fixes.eq_def]
  simp [h]

theorem feline_fixes_nil_left (s : List Char) (l : Int) (h : ¬ l < 0) :
    feline_fixes [] s l = s.length := by
  rw [feline_fixes.eq_def]
  simp [h]

theorem feline_fixes_nil_right (t : List Char) (l : Int) (h : ¬ l < 0) :
    feline_fixes t [] l = t.length := by
  rw [feline_fixes.eq_def]
  cases t <;> simp [h]

theorem feline_fixes_cons_cons (a b : Char) (t s : List Char) (l : Int) (h : ¬ l < 0) :
    feline_fixes (a :: t) (b :: s) l =
      if a = b then feline_fixes t s l else 1 + feline_fixes t s (l - 1) := by
  rw [feline_fixes.eq_def]
  simp [h]

theorem minimum_mewtations_neg (s g : List Char) (l : Int) (h : l < 0) :
    minimum_mewtations s g l = 0 := by
  rw [minimum_mewtations.eq_def]
  simp [h]

theorem minimum_mewtations_nil_right (s : List Char) (l : Int) (h : ¬ l < 0) :
    minimum_mewtations s [] l = s.length := by
  rw [minimum_mewtations.eq_def]
  cases s <;> simp [h]

theorem minimum_mewtations_nil_left (g : List Char) (l : Int) (h : ¬ l < 0) :
    minimum_mewtations [] g l = g.length := by
  rw [minimum_mewtations.eq_def]
  cases g <;> simp [h]

theorem minimum_mewtations_cons_cons (a b : Char) (s g : List Char) (l : Int) (h : ¬ l < 0) :
    minimum_mewtations (a :: s) (b :: g) l =
      if b = a then minimum_mewtations s g l
      else 1 + min (minimum_mewtations (a :: s) g (l - 1))
        (min (minimum_mewtations s (b :: g) (l - 1)) (minimum_mewtations s g (l - 1))) := by
  rw [minimum_mewtations.eq_def]
  simp [h]

/-- The pruned full edit distance never exceeds the true edit distance,
whatever the limit: the negative-limit base case only ever understates. -/
theorem minimum_mewtations_le_editDist :
    ∀ n s g (l : Int), s.length + g.length ≤ n →
      minimum_mewtations s g l ≤ editDist s g := by
  intro n
  induction n with
  | zero =>
    intro s g l hn
    cases s with
    | cons a s => simp only [List.length_cons] at hn; omega
    | nil =>
      cases g with
      | cons b g => simp only [List.length_cons] at hn; omega
      | nil =>
        by_cases h : l < 0
        · rw [minimum_mewtations_neg _ _ _ h]; omega
        · rw [minimum_mewtations_nil_left _ _ h, editDist_nil_left]
  | succ n ih =>
    intro s g l hn
    by_cases h : l < 0
    · rw [minimum_mewtations_neg _ _ _ h]; omega
    match s, g with
    | s, [] => rw [minimum_mewtations_nil_right _ _ h, editDist_nil_right]
    | [], b :: g => rw [minimum_mewtations_nil_left _ _ h, editDist_nil_left]
    | a :: s, b :: g =>
      rw [minimum_mewtations_cons_cons _ _ _ _ _ h]
      simp only [List.length_cons] at hn
      by_cases hba : b = a
      · rw [if_pos hba]
        subst hba
        rw [editDist_cons_cons_same]
        exact ih s g l (by omega)
      · rw [if_neg hba]
        have hab : a ≠ b := fun hc => hba hc.symm
        rw [editDist_cons_cons_ne a b s g hab]
        have h1 := ih (a :: s) g (l - 1) (by simp only [List.length_cons]; omega)
        have h2 := ih s (b :: g) (l - 1) (by simp only [List.length_cons]; omega)
        have h3 := ih s g (l - 1) (by omega)
        omega

/-- Lower bound on the pruned full edit distance: it is at least
`min(editDist, limit + 1)`, so a result that comes back within the limit is
not an artifact of pruning. -/
theorem le_minimum_mewtations :
    ∀ n s g (l : Int), s.length + g.length ≤ n →
      min ((editDist s g : Int)) (l + 1) ≤ (minimum_mewtations s g l : Int) := by
  intro n
  induction n with
  | zero =>
    intro s g l hn
    cases s with
    | cons a s => simp only [List.length_cons] at hn; omega
    | nil =>
      cases g with
      | cons b g => simp only [List.length_cons] at hn; omega
      | nil =>
        by_cases h : l < 0
        · rw [minimum_mewtations_neg _ _ _ h]; omega
        · rw [minimum_mewtations_nil_left _ _ h, editDist_nil_left]; omega
  | succ n ih =>
    intro s g l hn
    by_cases h : l < 0
    · rw [minimum_mewtations_neg _ _ _ h]; omega
    match s, g with
    | s, [] => rw [minimum_mewtations_nil_right _ _ h, editDist_nil_right]; omega
    | [], b :: g => rw [minimum_mewtations_nil_left _ _ h, editDist_nil_left]; omega
    | a :: s, b :: g =>
      rw [minimum_mewtations_cons_cons _ _ _ _ _ h]
      simp only [List.length_cons] at hn
      by_cases hba : b = a
      · rw [if_pos hba]
        subst hba
        rw [editDist_cons_cons_same]
        exact le_trans (by omega) (ih s g l (by omega))
      · rw [if_neg hba]
        have hab : a ≠ b := fun hc => hba hc.symm
        rw [editDist_cons_cons_ne a b s g hab]
        have h1 := ih (a :: s) g (l - 1) (by simp only [List.length_cons]; omega)
        have h2 := ih s (b :: g) (l - 1) (by simp only [List.length_cons]; omega)
        have h3 := ih s g (l - 1) (by omega)
        push_cast at h1 h2 h3 ⊢
        omega

/-! ## Closed form of feline fixes, and comparison of the two variants -/

/-- Number of positions `i` below `min (length t) (length s)` where the two
lists disagree (specification-side counting of forced substitutions). -/
def mismatchCount {α : Type} [DecidableEq α] (d : α) (t s : List α) : Nat :=
  ((List.range (min t.length s.length)).filter
    (fun i => decide (t.getD i d ≠ s.getD i d))).length

theorem mismatchCount_nil_left {α : Type} [DecidableEq α] (d : α) (s : List α) :
    mismatchCount d [] s = 0 := by
  simp [mismatchCount]

theorem mismatchCount_nil_right {α : Type} [DecidableEq α] (d : α) (t : List α) :
    mismatchCount d t [] = 0 := by
  simp [mismatchCount]

theorem mismatchCount_cons_cons {α : Type} [DecidableEq α] (d : α) (a b : α) (t s : List α) :
    mismatchCount d (a :: t) (b :: s) =
      (if a = b then 0 else 1) + mismatchCount d t s := by
  unfold mismatchCount
  have hmin : min (a :: t).length (b :: s).length = min t.length s.length + 1 := by
    simp only [List.length_cons]
    omega
  rw [hmin, List.range_succ_eq_map, List.filter_cons, List.filter_map]
  by_cases hab : a = b
  · simp [hab, Function.comp_def]
  · simp [hab, Function.comp_def]
    omega

/-- Closed form for `feline_fixes` when the limit is at least the length of
the shorter word (so pruning never fires): mismatches on the overlap plus the
length difference. -/
theorem feline_fixes_formula :
    ∀ (t s : List Char) (l : Int), (min t.length s.length : Int) ≤ l →
      feline_fixes t s l =
        mismatchCount 'a' t s + (max t.length s.length - min t.length s.length) := by
  intro t
  induction t with
  | nil =>
    intro s l hl
    have h : ¬ l < 0 := by simp at hl; omega
    rw [feline_fixes_nil_left _ _ h, mismatchCount_nil_left]
    simp
  | cons a t ih =>
    intro s l hl
    cases s with
    | nil =>
      have h : ¬ l < 0 := by simp at hl; omega
      rw [feline_fixes_nil_right _ _ h, mismatchCount_nil_right]
      simp
    | cons b s =>
      have hmin : (min (a :: t).length (b :: s).length : Int) = min t.length s.length + 1 := by
        simp only [List.length_cons]
        push_cast
        omega
      have h : ¬ l < 0 := by omega
      rw [feline_fixes_cons_cons _ _ _ _ _ h, mismatchCount_cons_cons]
      have hlen : max (a :: t).length (b :: s).length - min (a :: t).length (b :: s).length =
          max t.length s.length - min t.length s.length := by
        simp only [List.length_cons]
        omega
      rw [hlen]
      by_cases hab : a = b
      · rw [if_pos hab, if_pos hab, ih s l (by omega)]
        omega
      · rw [if_neg hab, if_neg hab, ih s (l - 1) (by omega)]
        omega

/-- With a limit at least the length of the shorter word, the full edit
distance variant never exceeds the substitution-only variant. -/
theorem minimum_mewtations_le_feline_fixes :
    ∀ (s g : List Char) (l : Int), (min s.length g.length : Int) ≤ l →
      minimum_mewtations s g l ≤ feline_fixes s g l := by
  intro s
  induction s with
  | nil =>
    intro g l hl
    have h : ¬ l < 0 := by simp at hl; omega
    rw [minimum_mewtations_nil_left _ _ h, feline_fixes_nil_left _ _ h]
  | cons a s ih =>
    intro g l hl
    cases g with
    | nil =>
      have h : ¬ l < 0 := by simp at hl; omega
      rw [minimum_mewtations_nil_right _ _ h, feline_fixes_nil_right _ _ h]
    | cons b g =>
      have h : ¬ l < 0 := by
        simp only [List.length_cons] at hl
        push_cast at hl
        omega
      rw [minimum_mewtations_cons_cons _ _ _ _ _ h, feline_fixes_cons_cons _ _ _ _ _ h]
      have hmin : (min s.length g.length : Int) ≤ l - 1 := by
        simp only [List.length_cons] at hl
        push_cast at hl ⊢
        omega
      by_cases hab : a = b
      · rw [if_pos hab, if_pos (hab.symm)]
        exact ih g l (by simp only [List.length_cons] at hl; push_cast at hl ⊢; omega)
      · have hba : ¬ b = a := fun hc => hab hc.symm
        rw [if_neg hab, if_neg hba]
        have hsub := ih g (l - 1) hmin
        omega

/-! ## Recursion depth of the two distance functions (for the resource claim).
The depth of a call that returns through a base case is 0; otherwise it is one
more than the (maximum) depth of its recursive calls, mirroring the recursive
structure of the source functions exactly. -/

/-- Recursion depth of `feline_fixes`. -/
def felineFixesDepth : List Char → List Char → Int → Nat
  | typed, source, limit =>
    if limit < 0 then 0
    else
      match typed, source with
      | [], _ => 0
      | _, [] => 0
      | a :: t, b :: s =>
        if a = b then 1 + felineFixesDepth t s limit
        else 1 + felineFixesDepth t s (limit - 1)
termination_by t s _ => t.length + s.length

/-- Recursion depth of `minimum_mewtations`. -/
def minimumMewtationsDepth : List Char → List Char → Int → Nat
  | start, goal, limit =>
    if limit < 0 then 0
    else
      match start, goal with
      | _, [] => 0
      | [], _ => 0
      | a :: s, b :: g =>
        if b = a then 1 + minimumMewtationsDepth s g limit
        else 1 + max (minimumMewtationsDepth (a :: s) g (limit - 1))
          (max (minimumMewtationsDepth s (b :: g) (limit - 1))
            (minimumMewtationsDepth s g (limit - 1)))
termination_by s g _ => s.length + g.length

theorem felineFixesDepth_le :
    ∀ (t s : List Char) (l : Int), 0 ≤ l →
      (felineFixesDepth t s l : Int) ≤ l + max t.length s.length := by
  intro t
  induction t with
  | nil =>
    intro s l hl
    rw [felineFixesDepth.eq_def]
    simp only [if_neg (by omega : ¬ l < 0)]
    positivity
  | cons a t ih =>
    intro s l hl
    cases s with
    | nil =>
      rw [felineFixesDepth.eq_def]
      simp only [if_neg (by omega : ¬ l < 0)]
      positivity
    | cons b s =>
      rw [felineFixesDepth.eq_def]
      simp only [if_neg (by omega : ¬ l < 0), List.length_cons]
      by_cases hab : a = b
      · rw [if_pos hab]
        have h1 := ih s l hl
        push_cast at h1 ⊢
        omega
      · rw [if_neg hab]
        by_cases hl1 : 0 ≤ l - 1
        · have h1 := ih s (l - 1) hl1
          push_cast at h1 ⊢
          omega
        · have h0 : felineFixesDepth t s (l - 1) = 0 := by
            rw [felineFixesDepth.eq_def]
            simp only [if_pos (by omega : l - 1 < 0)]
          rw [h0]
          push_cast
          omega

theorem minimumMewtationsDepth_le :
    ∀ n (s g : List Char) (l : Int), s.length + g.length ≤ n → 0 ≤ l →
      (minimumMewtationsDepth s g l : Int) ≤ l + max s.length g.length := by
  intro n
  induction n with
  | zero =>
    intro s g l hn hl
    cases s with
    | cons a s => simp only [List.length_cons] at hn; omega
    | nil =>
      cases g with
      | cons b g => simp only [List.length_cons] at hn; omega
      | nil =>
        rw [minimumMewtationsDepth.eq_def]
        simp only [if_neg (by omega : ¬ l < 0)]
        positivity
  | succ n ih =>
    intro s g l hn hl
    match s, g with
    | s, [] =>
      rw [minimumMewtationsDepth.eq_def]
      simp only [if_neg (by omega : ¬ l < 0)]
      cases s <;> positivity
    | [], b :: g =>
      rw [minimumMewtationsDepth.eq_def]
      simp only [if_neg (by omega : ¬ l < 0)]
      positivity
    | a :: s, b :: g =>
      rw [minimumMewtationsDepth.eq_def]
      simp only [if_neg (by omega : ¬ l < 0), List.length_cons] at *
      by_cases hba : b = a
      · rw [if_pos hba]
        have h1 := ih s g l (by omega) hl
        push_cast at h1 ⊢
        omega
      · rw [if_neg hba]
        by_cases hl1 : 0 ≤ l - 1
        · have h1 := ih (a :: s) g (l - 1) (by simp only [List.length_cons]; omega) hl1
          have h2 := ih s (b :: g) (l - 1) (by simp only [List.length_cons]; omega) hl1
          have h3 := ih s g (l - 1) (by omega) hl1
          simp only [List.length_cons] at h1 h2
          push_cast at h1 h2 h3 ⊢
          omega
        · have e1 : minimumMewtationsDepth (a :: s) g (l - 1) = 0 := by
            rw [minimumMewtationsDepth.eq_def]
            simp only [if_pos (by omega : l - 1 < 0)]
          have e2 : minimumMewtationsDepth s (b :: g) (l - 1) = 0 := by
            rw [minimumMewtationsDepth.eq_def]
            simp only [if_pos (by omega : l - 1 < 0)]
          have e3 : minimumMewtationsDepth s g (l - 1) = 0 := by
            rw [minimumMewtationsDepth.eq_def]
            simp only [if_pos (by omega : l - 1 < 0)]
          rw [e1, e2, e3]
          push_cast
          omega

/-! ## Claims C1, C2, C3, C8 -/

/-- C1: for every pair of strings and every integer `limit >= 0`, if
`minimum_mewtations(start, goal, limit)` returns a value `r` with `r <= limit`
then `r` is the true edit distance between the two strings: the pruning base
never corrupts a top-level result that comes back within the limit. -/
theorem mewtations_within_limit_exact (start goal : List Char) (limit : Int)
    (h0 : 0 ≤ limit) (hr : (minimum_mewtations start goal limit : Int) ≤ limit) :
    minimum_mewtations start goal limit = editDist start goal := by
  have hA := minimum_mewtations_le_editDist (start.length + goal.length) start goal limit le_rfl
  have hB := le_minimum_mewtations (start.length + goal.length) start goal limit le_rfl
  omega

/-- Witness for C1 at the doctest input: `minimum_mewtations("cats", "scat", 10)`
returns 2, which is within the limit and is the true edit distance. -/
theorem mewtations_within_limit_exact_witness :
    (0 : Int) ≤ 10 ∧ (minimum_mewtations "cats".toList "scat".toList 10 : Int) ≤ 10 ∧
      minimum_mewtations "cats".toList "scat".toList 10 = editDist "cats".toList "scat".toList := by
  have h2 : minimum_mewtations "cats".toList "scat".toList 10 = 2 := by
    simp [minimum_mewtations]
  exact ⟨by norm_num, by rw [h2]; norm_num,
    mewtations_within_limit_exact "cats".toList "scat".toList 10 (by norm_num)
      (by rw [h2]; norm_num)⟩

/-- C2: with a limit large enough that no pruning occurs (in particular any
`L >= len(start) + len(goal)`), the full edit distance variant is bounded by
the substitution-only variant. -/
theorem mewtations_le_fixes (start goal : List Char) (L : Int)
    (hL : (start.length : Int) + (goal.length : Int) ≤ L) :
    minimum_mewtations start goal L ≤ feline_fixes start goal L :=
  minimum_mewtations_le_feline_fixes start goal L (by push_cast; omega)

/-- Witness for C2 at `start = "rose"`, `goal = "hello"`, `L = 9`. -/
theorem mewtations_le_fixes_witness :
    ("rose".toList.length : Int) + ("hello".toList.length : Int) ≤ 9 ∧
      minimum_mewtations "rose".toList "hello".toList 9 ≤
        feline_fixes "rose".toList "hello".toList 9 :=
  ⟨by norm_num, mewtations_le_fixes "rose".toList "hello".toList 9 (by norm_num)⟩

/-- C3: for every `limit >= min(len(typed), len(source))`, `feline_fixes`
equals the number of positions below the shorter length where the words
differ, plus the absolute difference of the lengths. -/
theorem fixes_closed_form (typed source : List Char) (limit : Int)
    (h : (min typed.length source.length : Int) ≤ limit) :
    feline_fixes typed source limit =
      mismatchCount 'a' typed source +
        (max typed.length source.length - min typed.length source.length) :=
  feline_fixes_formula typed source limit (by push_cast at h ⊢; omega)

/-- Witness for C3 at the doctest input: `feline_fixes("pill", "pillage", 10) == 3`. -/
theorem fixes_closed_form_witness :
    (min "pill".toList.length "pillage".toList.length : Int) ≤ 10 ∧
      feline_fixes "pill".toList "pillage".toList 10 = 3 := by
  have h := fixes_closed_form "pill".toList "pillage".toList 10 (by norm_num)
  refine ⟨by norm_num, ?_⟩
  rw [h]
  decide

/-- C8 counterexample: as stated the depth bound
`depth <= limit + max(len(start), len(goal))` is quantified over every integer
limit, but at `limit = -1` with two empty strings the recursion depth is 0
while the claimed bound is -1. -/
theorem depth_bound_counterexample :
    felineFixesDepth [] [] (-1) = 0 ∧
      ¬ ((felineFixesDepth [] [] (-1) : Int) ≤
          -1 + max (List.length ([] : List Char)) (List.length ([] : List Char))) := by
  have h0 : felineFixesDepth [] [] (-1) = 0 := by
    rw [felineFixesDepth.eq_def]
    norm_num
  refine ⟨h0, ?_⟩
  rw [h0]
  norm_num

/-- C8 amended: both recursive distance computations are total functions (the
depth functions below mirror their call trees), and for every `limit >= 0`
the recursion depth (number of nested recursive invocations, 0 at a base
case) is bounded by `limit + max(len(start), len(goal))`; a call with a
negative limit returns immediately with depth 0. -/
theorem depth_bound (start goal : List Char) (limit : Int) (h : 0 ≤ limit) :
    (felineFixesDepth start goal limit : Int) ≤ limit + max start.length goal.length ∧
      (minimumMewtationsDepth start goal limit : Int) ≤
        limit + max start.length goal.length :=
  ⟨felineFixesDepth_le start goal limit h,
   minimumMewtationsDepth_le (start.length + goal.length) start goal limit le_rfl h⟩

/-- Witness for the amended C8 at `"cats"`, `"scat"`, limit 10. -/
theorem depth_bound_witness :
    (0 : Int) ≤ 10 ∧
      ((felineFixesDepth "cats".toList "scat".toList 10 : Int) ≤
          10 + max "cats".toList.length "scat".toList.length ∧
        (minimumMewtationsDepth "cats".toList "scat".toList 10 : Int) ≤
          10 + max "cats".toList.length "scat".toList.length) :=
  ⟨by norm_num, depth_bound "cats".toList "scat".toList 10 (by norm_num)⟩

/-! ## Autocorrect (Phase 2 of cats.py)

The Python loop in `compute_smallest_diff_and_return_word` starts from
`smallest_diff = math.inf` (modelled as `none`) and `autocorrect_word = ""`
and replaces both whenever the current difference is strictly smaller, so on
ties the first candidate in scan order is kept.  The scan is modelled once,
generically in the value order, and instantiated for the autocorrect claims
(over `Int`) and the fastest-words claims (over `ℚ`). -/

/-- Minimum of a list of values, `none` for the empty list. -/
def listMin {α : Type} [LinearOrder α] : List α → Option α
  | [] => none
  | x :: xs =>
    match listMin xs with
    | none => some x
    | some m => some (min x m)

/-- Minimum of an optional value and an optional minimum. -/
def optMin {α : Type} [LinearOrder α] : Option α → Option α → Option α
  | none, y => y
  | some v, none => some v
  | some v, some w => some (min v w)

theorem listMin_eq_none {α : Type} [LinearOrder α] :
    ∀ (l : List α), listMin l = none → l = [] := by
  intro l hl
  cases l with
  | nil => rfl
  | cons x xs =>
    rw [listMin] at hl
    cases h : listMin xs <;> rw [h] at hl <;> cases hl

theorem listMin_le {α : Type} [LinearOrder α] :
    ∀ (l : List α) (m : α), listMin l = some m → ∀ x ∈ l, m ≤ x := by
  intro l
  induction l with
  | nil => intro m hm x hx; cases hx
  | cons y ys ih =>
    intro m hm x hx
    rw [List.mem_cons] at hx
    rw [listMin] at hm
    cases hys : listMin ys with
    | none =>
      rw [hys] at hm
      cases hm
      rcases hx with hx | hx
      · subst hx; exact le_rfl
      · rw [listMin_eq_none ys hys] at hx; cases hx
    | some m' =>
      rw [hys] at hm
      cases hm
      rcases hx with hx | hx
      · subst hx; exact min_le_left _ _
      · exact le_trans (min_le_right _ _) (ih m' hys x hx)

/-- The Python minimum-tracking loop: scan `ks`, keep the current best key and
best value, replace both when the value of the next key is strictly smaller
than the best so far (`none` standing for `math.inf`). -/
def firstMinScan {κ α : Type} [LinearOrder α] (f : κ → α) :
    List κ → Option α → κ → κ × Option α
  | [], s, b => (b, s)
  | k :: ks, s, b =>
    if s.all (fun v => decide (f k < v)) then firstMinScan f ks (some (f k)) k
    else firstMinScan f ks s b

theorem firstMinScan_snd {κ α : Type} [LinearOrder α] (f : κ → α) :
    ∀ (ks : List κ) (s : Option α) (b : κ),
      (firstMinScan f ks s b).2 = optMin s (listMin (ks.map f)) := by
  intro ks
  induction ks with
  | nil =>
    intro s b
    rw [firstMinScan]
    cases s <;> simp [listMin, optMin]
  | cons k ks ih =>
    intro s b
    rw [firstMinScan, List.map_cons, listMin]
    cases s with
    | none =>
      simp only [Option.all_none, if_pos]
      rw [ih]
      cases hr : listMin (ks.map f) <;> simp [optMin]
    | some v =>
      by_cases hlt : f k < v
      · rw [if_pos (by simp [hlt]), ih]
        cases hr : listMin (ks.map f) with
        | none => simp [optMin, min_eq_right (le_of_lt hlt)]
        | some m =>
          simp only [optMin]
          congr 1
          exact (min_eq_right (le_of_lt (lt_of_le_of_lt (min_le_left _ _) hlt))).symm
      · rw [if_neg (by simp [hlt]), ih]
        have hv : v ≤ f k := le_of_not_lt hlt
        cases hr : listMin (ks.map f) with
        | none => simp [optMin, min_eq_left hv]
        | some m =>
          simp only [optMin]
          congr 1
          rw [← min_assoc, min_eq_left hv]

theorem firstMinScan_no_update {κ α : Type} [LinearOrder α] (f : κ → α) :
    ∀ (ks : List κ) (v : α) (b : κ), (∀ k ∈ ks, v ≤ f k) →
      firstMinScan f ks (some v) b = (b, some v) := by
  intro ks
  induction ks with
  | nil => intro v b _; rw [firstMinScan]
  | cons k ks ih =>
    intro v b hle
    rw [firstMinScan]
    have hk : ¬ f k < v := not_lt_of_le (hle k (List.mem_cons_self k ks))
    rw [if_neg (by simp [hk])]
    exact ih v b (fun k' hk' => hle k' (List.mem_cons_of_mem k hk'))

theorem firstMinScan_fst {κ α : Type} [LinearOrder α] [DecidableEq α] (f : κ → α) :
    ∀ (ks : List κ) (s : Option α) (b : κ) (m : α),
      listMin (ks.map f) = some m →
      (s = none ∨ ∃ v, s = some v ∧ m < v) →
      ks.find? (fun k => decide (f k = m)) = some ((firstMinScan f ks s b).1) := by
  intro ks
  induction ks with
  | nil => intro s b m hm _; cases hm
  | cons k ks ih =>
    intro s b m hm hs
    rw [List.map_cons, listMin] at hm
    rw [firstMinScan, List.find?]
    cases hr : listMin (ks.map f) with
    | none =>
      rw [hr] at hm
      cases hm
      have hcond : s.all (fun v => decide (f k < v)) = true := by
        rcases hs with hs | ⟨v, hv, hmv⟩
        · rw [hs]; rfl
        · rw [hv]; simpa using hmv
      rw [if_pos hcond]
      have hnil : ks = [] := by
        cases ks with
        | nil => rfl
        | cons z zs =>
          rw [List.map_cons, listMin] at hr
          cases hzs : listMin (zs.map f) <;> rw [hzs] at hr <;> cases hr
      subst hnil
      rw [firstMinScan]
      simp
    | some m' =>
      rw [hr] at hm
      cases hm
      by_cases hmk : m' < f k
      · have hmin : min (f k) m' = m' := min_eq_right (le_of_lt hmk)
        rw [hmin]
        have hne : ¬ (f k = m') := ne_of_gt hmk
        have hpred : (decide (f k = m') : Bool) = false := by simpa using hne
        rw [hpred]
        by_cases hcond : s.all (fun v => decide (f k < v)) = true
        · rw [if_pos hcond]
          exact ih (some (f k)) k m' hr (Or.inr ⟨f k, rfl, hmk⟩)
        · rw [if_neg hcond]
          rcases hs with hs | ⟨v, hv, hmv⟩
          · rw [hs] at hcond; exact absurd rfl hcond
          · rw [hmin] at hmv
            exact ih s b m' hr (Or.inr ⟨v, hv, hmv⟩)
      · have hkm : f k ≤ m' := le_of_not_lt hmk
        have hmin : min (f k) m' = f k := min_eq_left hkm
        rw [hmin]
        have hcond : s.all (fun v => decide (f k < v)) = true := by
          rcases hs with hs | ⟨v, hv, hmv⟩
          · rw [hs]; rfl
          · rw [hv]; rw [hmin] at hmv; simpa using hmv
        rw [if_pos hcond]
        have hall : ∀ k' ∈ ks, f k ≤ f k' := by
          intro k' hk'
          exact le_trans hkm (listMin_le _ _ hr (f k') (List.mem_map_of_mem f hk'))
        rw [firstMinScan_no_update f ks (f k) k hall]
        simp

/-- `compute_smallest_diff_and_return_word` from cats.py: scan the word list
tracking the strictly smallest difference seen so far (starting from
`math.inf`, modelled `none`) and the first word achieving it. -/
def compute_smallest_diff_and_return_word
    (diff_function : List Char → List Char → Int → Int) (limit : Int)
    (typed_word : List Char) (word_list : List (List Char)) :
    List Char × Option Int :=
  firstMinScan (fun word => diff_function typed_word word limit) word_list none []

/-- `autocorrect(typed_word, word_list, diff_function, limit)` from cats.py. -/
def autocorrect (typed_word : List Char) (word_list : List (List Char))
    (diff_function : List Char → List Char → Int → Int) (limit : Int) : List Char :=
  if typed_word ∈ word_list then typed_word
  else
    let r := compute_smallest_diff_and_return_word diff_function limit typed_word word_list
    if r.2.all (fun v => decide (limit < v)) then typed_word else r.1

/-- C4: `autocorrect` returns `typed_word` unchanged when it occurs in the
word list; otherwise, writing `m` for the minimum of
`diff_function(typed_word, w, limit)` over the list, the first candidate `w`
in scan order with difference `m` is selected, and the result is `typed_word`
when `m > limit` and that first minimizing candidate otherwise. -/
theorem autocorrect_spec (typed_word : List Char) (word_list : List (List Char))
    (diff_function : List Char → List Char → Int → Int) (limit : Int) :
    (typed_word ∈ word_list →
      autocorrect typed_word word_list diff_function limit = typed_word) ∧
    (typed_word ∉ word_list →
      ∀ m, listMin (word_list.map (fun w => diff_function typed_word w limit)) = some m →
        ∃ best,
          word_list.find? (fun w => decide (diff_function typed_word w limit = m)) =
            some best ∧
          autocorrect typed_word word_list diff_function limit =
            if limit < m then typed_word else best) := by
  constructor
  · intro hmem
    rw [autocorrect, if_pos hmem]
  · intro hmem m hm
    have hsnd := firstMinScan_snd (fun w => diff_function typed_word w limit) word_list none []
    have hfst := firstMinScan_fst (fun w => diff_function typed_word w limit) word_list none []
      m hm (Or.inl rfl)
    refine ⟨(firstMinScan (fun w => diff_function typed_word w limit) word_list none []).1,
      hfst, ?_⟩
    rw [autocorrect, if_neg hmem]
    show (if (compute_smallest_diff_and_return_word diff_function limit typed_word
        word_list).2.all (fun v => decide (limit < v)) = true then typed_word
      else (compute_smallest_diff_and_return_word diff_function limit typed_word
        word_list).1) = _
    rw [compute_smallest_diff_and_return_word, hsnd, hm]
    simp only [optMin, Option.all_some, decide_eq_true_eq]

/-- Witness for C4 at the doctest input: with the constant difference 10 and
limit 20, `autocorrect("hwllo", ["butter", "hello", "potato"], ten_diff, 20)`
returns `"butter"`, the first candidate achieving the minimum. -/
theorem autocorrect_spec_witness :
    "hwllo".toList ∉ ["butter".toList, "hello".toList, "potato".toList] ∧
      autocorrect "hwllo".toList ["butter".toList, "hello".toList, "potato".toList]
        (fun _ _ _ => 10) 20 = "butter".toList := by
  have hmem : "hwllo".toList ∉ ["butter".toList, "hello".toList, "potato".toList] := by
    decide
  have hmin : listMin (["butter".toList, "hello".toList, "potato".toList].map
      (fun w => (fun (_ _ : List Char) (_ : Int) => (10 : Int)) "hwllo".toList w 20)) =
      some 10 := by decide
  obtain ⟨best, hfind, heq⟩ :=
    (autocorrect_spec "hwllo".toList ["butter".toList, "hello".toList, "potato".toList]
      (fun _ _ _ => 10) 20).2 hmem 10 hmin
  have hbest : best = "butter".toList := by
    have hfind2 : (["butter".toList, "hello".toList, "potato".toList].find?
        (fun w => decide ((fun (_ _ : List Char) (_ : Int) => (10 : Int)) "hwllo".toList w 20
          = 10))) = some "butter".toList := by decide
    rw [hfind2] at hfind
    exact (Option.some.inj hfind).symm
  refine ⟨hmem, ?_⟩
  rw [heq, if_neg (by norm_num), hbest]

/-- C10: on an empty word list the tracked minimum stays at infinity, which
exceeds every finite limit, so `autocorrect` returns the typed word and never
the empty-string placeholder. -/
theorem autocorrect_empty_list (typed_word : List Char)
    (diff_function : List Char → List Char → Int → Int) (limit : Int) :
    autocorrect typed_word [] diff_function limit = typed_word := by
  rw [autocorrect, if_neg (List.not_mem_nil typed_word)]
  rfl

/-! ## Scorer (Phase 1 of cats.py) -/

/-- Modelled from the spec: the tokenizer `split` used by `accuracy` comes
from the utils module, which is not part of the repository sources.  Per the
spec it is a raw whitespace split preserving case and punctuation (Python
`str.split()`): maximal runs of non-whitespace characters become the tokens
and whitespace runs are discarded. -/
def splitWS : List Char → List (List Char)
  | [] => []
  | c :: cs =>
    if c.isWhitespace then splitWS cs
    else
      match splitWS cs, cs with
      | w :: ws, d :: _ => if d.isWhitespace then [c] :: w :: ws else (c :: w) :: ws
      | _, _ => [[c]]

/-- `compute_mistyped_words` from cats.py: loop over the indices below the
shorter token-list length, counting positions where the tokens differ. -/
def compute_mistyped_words (typed_words source_words : List (List Char)) : Nat :=
  (List.range (min typed_words.length source_words.length)).foldl
    (fun cnt i => if typed_words.getD i [] ≠ source_words.getD i [] then cnt + 1 else cnt) 0

/-- `compute_extra_typed_words` from cats.py. -/
def compute_extra_typed_words (typed_words_len source_words_len : Nat) : Nat :=
  if typed_words_len > source_words_len then typed_words_len - source_words_len else 0

/-- `compute_accuracy` from cats.py. -/
def compute_accuracy (mistyped_words_cnt extra_typed_words_cnt typed_words_len : Nat) : ℚ :=
  (1 - ((mistyped_words_cnt : ℚ) + (extra_typed_words_cnt : ℚ)) / (typed_words_len : ℚ)) * 100

/-- `accuracy(typed, source)` from cats.py (local variables inlined). -/
def accuracy (typed source : List Char) : ℚ :=
  if (splitWS typed).length = 0 ∧ (splitWS source).length = 0 then 100
  else if (splitWS typed).length = 0 ∨ (splitWS source).length = 0 then 0
  else
    compute_accuracy (compute_mistyped_words (splitWS typed) (splitWS source))
      (compute_extra_typed_words (splitWS typed).length (splitWS source).length)
      (splitWS typed).length

/-- A fold that increments a counter on every element satisfying `p` counts
the elements satisfying `p`. -/
theorem foldl_count {β : Type} (p : β → Prop) [DecidablePred p] :
    ∀ (l : List β) (init : Nat),
      l.foldl (fun cnt i => if p i then cnt + 1 else cnt) init =
        init + (l.filter (fun i => decide (p i))).length := by
  intro l
  induction l with
  | nil => intro init; simp
  | cons x xs ih =>
    intro init
    rw [List.foldl_cons, List.filter_cons]
    by_cases hx : p x
    · rw [if_pos hx, ih]
      simp only [hx, decide_eq_true_eq, ite_true, List.length_cons]
      omega
    · rw [if_neg hx, ih]
      simp [hx]

/-- The mistype-counting loop agrees with the specification-side mismatch
count. -/
theorem compute_mistyped_words_eq (tw sw : List (List Char)) :
    compute_mistyped_words tw sw = mismatchCount [] tw sw := by
  rw [compute_mistyped_words, mismatchCount,
    foldl_count (fun i => tw.getD i [] ≠ sw.getD i [])]
  omega

/-- Cast form of the extra-words penalty: `max(0, typed_len - source_len)`. -/
theorem compute_extra_typed_words_cast (t s : Nat) :
    ((compute_extra_typed_words t s : Nat) : ℚ) = max 0 ((t : ℚ) - (s : ℚ)) := by
  rw [compute_extra_typed_words]
  by_cases h : t > s
  · rw [if_pos h, Nat.cast_sub (le_of_lt h)]
    rw [max_eq_right (sub_nonneg.mpr (by exact_mod_cast le_of_lt h))]
  · rw [if_neg h]
    push_cast
    rw [max_eq_left (sub_nonpos.mpr (by exact_mod_cast Nat.le_of_not_lt h))]

/-- C5: `accuracy` splits both strings on whitespace; it returns 100 when both
token lists are empty, 0 when exactly one is empty, and otherwise
`(1 - (mismatches + extras) / len(typed_words)) * 100`, where mismatches
counts positions below the shorter length with exactly differing tokens and
extras is `max(0, len(typed_words) - len(source_words))`; in particular
`accuracy("Cute Dog!", "Cute Dog.") == 50.0` and a typed string shorter than
the source is not penalized (`accuracy("Cute", "Cute Dog.") == 100.0`). -/
theorem accuracy_spec (typed source : List Char) :
    (splitWS typed = [] ∧ splitWS source = [] → accuracy typed source = 100) ∧
    (splitWS typed = [] → splitWS source ≠ [] → accuracy typed source = 0) ∧
    (splitWS typed ≠ [] → splitWS source = [] → accuracy typed source = 0) ∧
    (splitWS typed ≠ [] → splitWS source ≠ [] →
      accuracy typed source =
        (1 - ((mismatchCount [] (splitWS typed) (splitWS source) : ℚ) +
            max 0 (((splitWS typed).length : ℚ) - ((splitWS source).length : ℚ))) /
          ((splitWS typed).length : ℚ)) * 100) ∧
    accuracy "Cute Dog!".toList "Cute Dog.".toList = 50 ∧
    accuracy "Cute".toList "Cute Dog.".toList = 100 := by
  refine ⟨?_, ?_, ?_, ?_, ?_, ?_⟩
  · rintro ⟨h1, h2⟩
    rw [accuracy, if_pos ⟨by rw [h1]; rfl, by rw [h2]; rfl⟩]
  · intro h1 h2
    rw [accuracy, if_neg (fun hc => h2 (List.length_eq_zero.mp hc.2)),
      if_pos (Or.inl (by rw [h1]; rfl))]
  · intro h1 h2
    rw [accuracy, if_neg (fun hc => h1 (List.length_eq_zero.mp hc.1)),
      if_pos (Or.inr (by rw [h2]; rfl))]
  · intro h1 h2
    have ht : (splitWS typed).length ≠ 0 := fun hc => h1 (List.length_eq_zero.mp hc)
    have hs : (splitWS source).length ≠ 0 := fun hc => h2 (List.length_eq_zero.mp hc)
    rw [accuracy, if_neg (fun hc => ht hc.1), if_neg (fun hc => hc.elim ht hs)]
    rw [compute_accuracy, compute_mistyped_words_eq, compute_extra_typed_words_cast]
  · have hm : compute_mistyped_words (splitWS "Cute Dog!".toList)
        (splitWS "Cute Dog.".toList) = 1 := by decide
    have he : compute_extra_typed_words (splitWS "Cute Dog!".toList).length
        (splitWS "Cute Dog.".toList).length = 0 := by decide
    have hl : (splitWS "Cute Dog!".toList).length = 2 := by decide
    rw [accuracy, if_neg (by decide), if_neg (by decide), hm, he, hl, compute_accuracy]
    norm_num
  · have hm : compute_mistyped_words (splitWS "Cute".toList)
        (splitWS "Cute Dog.".toList) = 0 := by decide
    have he : compute_extra_typed_words (splitWS "Cute".toList).length
        (splitWS "Cute Dog.".toList).length = 0 := by decide
    have hl : (splitWS "Cute".toList).length = 1 := by decide
    rw [accuracy, if_neg (by decide), if_neg (by decide), hm, he, hl, compute_accuracy]
    norm_num

/-- Witness for C5 at the doctest input: both token lists are nonempty and the
general formula applies. -/
theorem accuracy_spec_witness :
    splitWS "Cute Dog!".toList ≠ [] ∧ splitWS "Cute Dog.".toList ≠ [] ∧
      accuracy "Cute Dog!".toList "Cute Dog.".toList =
        (1 - ((mismatchCount [] (splitWS "Cute Dog!".toList)
              (splitWS "Cute Dog.".toList) : ℚ) +
            max 0 (((splitWS "Cute Dog!".toList).length : ℚ) -
              ((splitWS "Cute Dog.".toList).length : ℚ))) /
          ((splitWS "Cute Dog!".toList).length : ℚ)) * 100 :=
  ⟨by decide, by decide,
    ((accuracy_spec "Cute Dog!".toList "Cute Dog.".toList).2.2.2.1) (by decide) (by decide)⟩

/-- `wpm(typed, elapsed)` from cats.py: asserts `elapsed > 0` (modelled as
`none` on violation) and returns `(len(typed) / 5) * (60 / elapsed)`, counting
every character of the raw typed string. -/
def wpm (typed : List Char) (elapsed : ℚ) : Option ℚ :=
  if 0 < elapsed then some (((typed.length : ℚ) / 5) * (60 / elapsed)) else none

/-- C7: `wpm` fails (its precondition assert fires) exactly when
`elapsed <= 0`; for every `elapsed > 0` it returns
`(len(typed) / 5) * (60 / elapsed)` counting every raw character including
spaces; in particular `wpm("hello friend hello buddy hello", 15) == 24.0`. -/
theorem wpm_spec (typed : List Char) (elapsed : ℚ) :
    (wpm typed elapsed = none ↔ elapsed ≤ 0) ∧
    (0 < elapsed →
      wpm typed elapsed = some (((typed.length : ℚ) / 5) * (60 / elapsed))) ∧
    wpm "hello friend hello buddy hello".toList 15 = some 24 := by
  refine ⟨?_, ?_, ?_⟩
  · rw [wpm]
    by_cases h : 0 < elapsed
    · rw [if_pos h]
      constructor
      · intro hc; cases hc
      · intro hle; exact absurd h (not_lt_of_le hle)
    · rw [if_neg h]
      simp [le_of_not_lt h]
  · intro h
    rw [wpm, if_pos h]
  · have hlen : "hello friend hello buddy hello".toList.length = 30 := by decide
    rw [wpm, if_pos (by norm_num : (0 : ℚ) < 15), hlen]
    norm_num

/-- Witness for C7 at the doctest input: elapsed 15 is positive and the doctest
value 24 is produced. -/
theorem wpm_spec_witness :
    (0 : ℚ) < 15 ∧
      wpm "hello friend hello buddy hello".toList 15 =
        some ((("hello friend hello buddy hello".toList.length : ℚ) / 5) * (60 / 15)) :=
  ⟨by norm_num, (wpm_spec "hello friend hello buddy hello".toList 15).2.1 (by norm_num)⟩

/-! ## Progress reporting (Phase 3 of cats.py)

`report_progress` receives the typed words and the prompt words (lists of
strings).  Its helper `compute_correct_words_till_mistype` iterates over all
of `typed`, indexing `prompt` at each position, so it can raise `IndexError`;
the final division by `len(prompt)` can raise `ZeroDivisionError`.  The
`upload` callback is an external side effect whose return value is ignored, so
it is not modelled; the claim concerns the returned value and the failure
condition. -/

/-- The two failure modes of the progress computation. -/
inductive PyErr : Type
  | indexError : PyErr
  | zeroDivisionError : PyErr

/-- The loop of `compute_correct_words_till_mistype` from cats.py: walk the
typed words with a running index and counter, reading `prompt[i]` (which
fails when `i` runs past the end of `prompt`), incrementing on a match and
stopping at the first mismatch. -/
def countTillMistypeAux (prompt : List String) :
    List String → Nat → Nat → Except PyErr Nat
  | [], _, acc => Except.ok acc
  | t :: ts, i, acc =>
    match prompt.get? i with
    | none => Except.error PyErr.indexError
    | some p =>
      if t = p then countTillMistypeAux prompt ts (i + 1) (acc + 1)
      else Except.ok acc

/-- `compute_correct_words_till_mistype(prompt, typed)` from cats.py. -/
def compute_correct_words_till_mistype (prompt typed : List String) : Except PyErr Nat :=
  countTillMistypeAux prompt typed 0 0

/-- `get_progress_ratio` from cats.py (the trailing `ratio` is spelled
`fraction` here): divides the leading-match count by `len(prompt)`, raising
`ZeroDivisionError` on an empty prompt. -/
def get_progress_fraction (count : Nat) (prompt : List String) : Except PyErr ℚ :=
  if prompt.length = 0 then Except.error PyErr.zeroDivisionError
  else Except.ok ((count : ℚ) / (prompt.length : ℚ))

/-- `compute_progress_ratio(prompt, typed)` from cats.py (same renaming). -/
def compute_progress_fraction (prompt typed : List String) : Except PyErr ℚ :=
  match compute_correct_words_till_mistype prompt typed with
  | Except.error e => Except.error e
  | Except.ok c => get_progress_fraction c prompt

/-- `report_progress(typed, prompt, user_id, upload)` from cats.py, restricted
to its returned value (the upload side effect carries no information back). -/
def report_progress (typed prompt : List String) : Except PyErr ℚ :=
  compute_progress_fraction prompt typed

/-- Specification-side leading-match count: the number of leading positions
of `typed` that agree with `prompt`, stopping at the first mismatch. -/
def leadingMatches : List String → List String → Nat
  | t :: ts, p :: ps => if t = p then 1 + leadingMatches ts ps else 0
  | _, _ => 0

/-- Pure two-list form of the counting loop, recursing on both lists at
once. -/
def countTillMistypeSpec : List String → List String → Nat → Except PyErr Nat
  | [], _, acc => Except.ok acc
  | _ :: _, [], _ => Except.error PyErr.indexError
  | t :: ts, p :: ps, acc =>
    if t = p then countTillMistypeSpec ts ps (acc + 1) else Except.ok acc

theorem countTillMistypeAux_eq_spec (prompt : List String) :
    ∀ (ts : List String) (i acc : Nat),
      countTillMistypeAux prompt ts i acc = countTillMistypeSpec ts (prompt.drop i) acc := by
  intro ts
  induction ts with
  | nil => intro i acc; rw [countTillMistypeAux, countTillMistypeSpec]
  | cons t ts ih =>
    intro i acc
    rw [countTillMistypeAux]
    have hget : prompt.get? i = (prompt.drop i).get? 0 := by
      rw [List.get?_drop, Nat.add_zero]
    cases hd : prompt.drop i with
    | nil =>
      rw [hget, hd, countTillMistypeSpec]
      rfl
    | cons p ps =>
      rw [hget, hd]
      have hdrop : prompt.drop (i + 1) = ps := by
        have h2 := List.drop_drop 1 i prompt
        rw [hd] at h2
        simpa using h2.symm
      rw [countTillMistypeSpec]
      simp only [List.get?_cons_zero]
      by_cases htp : t = p
      · rw [if_pos htp, if_pos htp, ih (i + 1) (acc + 1), hdrop]
      · rw [if_neg htp, if_neg htp]

theorem countTillMistypeSpec_error_only :
    ∀ (ts ps : List String) (acc : Nat) (e : PyErr),
      countTillMistypeSpec ts ps acc = Except.error e → e = PyErr.indexError := by
  intro ts
  induction ts with
  | nil => intro ps acc e h; rw [countTillMistypeSpec] at h; cases h
  | cons t ts ih =>
    intro ps acc e h
    cases ps with
    | nil =>
      rw [countTillMistypeSpec] at h
      cases h
      rfl
    | cons p ps =>
      rw [countTillMistypeSpec] at h
      by_cases htp : t = p
      · rw [if_pos htp] at h
        exact ih ps (acc + 1) e h
      · rw [if_neg htp] at h
        cases h

theorem countTillMistypeSpec_error_iff :
    ∀ (ts ps : List String) (acc : Nat),
      countTillMistypeSpec ts ps acc = Except.error PyErr.indexError ↔
        (ps.length < ts.length ∧ ∀ i < ps.length, ts.get? i = ps.get? i) := by
  intro ts
  induction ts with
  | nil =>
    intro ps acc
    rw [countTillMistypeSpec]
    simp
  | cons t ts ih =>
    intro ps acc
    cases ps with
    | nil =>
      rw [countTillMistypeSpec]
      simp
    | cons p ps =>
      rw [countTillMistypeSpec]
      by_cases htp : t = p
      · rw [if_pos htp, ih ps (acc + 1)]
        constructor
        · rintro ⟨hlen, hall⟩
          refine ⟨by simp only [List.length_cons]; omega, ?_⟩
          intro i hi
          cases i with
          | zero => simp [htp]
          | succ j =>
            simp only [List.get?_cons_succ]
            exact hall j (by simp only [List.length_cons] at hi; omega)
        · rintro ⟨hlen, hall⟩
          refine ⟨by simp only [List.length_cons] at hlen; omega, ?_⟩
          intro j hj
          have := hall (j + 1) (by simp only [List.length_cons]; omega)
          simpa using this
      · rw [if_neg htp]
        constructor
        · intro h; cases h
        · rintro ⟨hlen, hall⟩
          have h0 := hall 0 (by simp only [List.length_cons]; omega)
          simp only [List.get?_cons_zero] at h0
          exact absurd (Option.some.inj h0) htp

theorem countTillMistypeSpec_ok :
    ∀ (ts ps : List String) (acc : Nat), ts.length ≤ ps.length →
      countTillMistypeSpec ts ps acc = Except.ok (acc + leadingMatches ts ps) := by
  intro ts
  induction ts with
  | nil =>
    intro ps acc _
    rw [countTillMistypeSpec, leadingMatches.eq_def]
    cases ps <;> rfl
  | cons t ts ih =>
    intro ps acc hlen
    cases ps with
    | nil => simp at hlen
    | cons p ps =>
      rw [countTillMistypeSpec, leadingMatches]
      by_cases htp : t = p
      · rw [if_pos htp, if_pos htp, ih ps (acc + 1) (by simpa using hlen)]
        congr 1
        omega
      · rw [if_neg htp, if_neg htp, Nat.add_zero]

/-- C9: `report_progress` fails with an index-out-of-range error exactly when
the typed list is longer than the prompt and the first `len(prompt)` typed
entries all match the prompt (the counting loop walks all of `typed` and
indexes `prompt` at each position); whenever `len(typed) <= len(prompt)` and
the prompt is nonempty, the call succeeds and returns the leading-match count
divided by `len(prompt)`. -/
theorem report_progress_spec (typed prompt : List String) :
    (report_progress typed prompt = Except.error PyErr.indexError ↔
      prompt.length < typed.length ∧ ∀ i < prompt.length, typed.get? i = prompt.get? i) ∧
    (typed.length ≤ prompt.length → prompt ≠ [] →
      report_progress typed prompt =
        Except.ok ((leadingMatches typed prompt : ℚ) / (prompt.length : ℚ))) := by
  have hbase : compute_correct_words_till_mistype prompt typed =
      countTillMistypeSpec typed prompt 0 := by
    rw [compute_correct_words_till_mistype, countTillMistypeAux_eq_spec prompt typed 0 0,
      List.drop_zero]
  constructor
  · rw [report_progress, compute_progress_fraction, hbase]
    cases hE : countTillMistypeSpec typed prompt 0 with
    | error e =>
      have he := countTillMistypeSpec_error_only typed prompt 0 e hE
      subst he
      exact iff_of_true rfl ((countTillMistypeSpec_error_iff typed prompt 0).mp hE)
    | ok c =>
      refine iff_of_false ?_ ?_
      · show ¬ (get_progress_fraction c prompt = Except.error PyErr.indexError)
        rw [get_progress_fraction]
        by_cases hp : prompt.length = 0
        · rw [if_pos hp]
          intro hc
          cases hc
        · rw [if_neg hp]
          intro hc
          cases hc
      · intro hR
        have := (countTillMistypeSpec_error_iff typed prompt 0).mpr hR
        rw [hE] at this
        cases this
  · intro hlen hne
    rw [report_progress, compute_progress_fraction, hbase,
      countTillMistypeSpec_ok typed prompt 0 hlen]
    show get_progress_fraction (0 + leadingMatches typed prompt) prompt = _
    rw [get_progress_fraction,
      if_neg (fun hc => hne (List.length_eq_zero.mp hc))]
    rw [Nat.zero_add]

/-- Witness for C9 at the doctest input: three typed words all matching a
five-word prompt give progress 3/5. -/
theorem report_progress_spec_witness :
    (["how", "are", "you"] : List String).length ≤
        (["how", "are", "you", "doing", "today"] : List String).length ∧
      report_progress ["how", "are", "you"] ["how", "are", "you", "doing", "today"] =
        Except.ok ((3 : ℚ) / 5) := by
  have h := (report_progress_spec ["how", "are", "you"]
    ["how", "are", "you", "doing", "today"]).2 (by decide) (by decide)
  refine ⟨by decide, ?_⟩
  rw [h]
  have hl : leadingMatches ["how", "are", "you"] ["how", "are", "you", "doing", "today"] = 3 := by
    decide
  rw [hl]
  norm_num

/-! ## Multiplayer match and fastest words (Phase 3 of cats.py)

A match is the dictionary produced by `match(words, times)`: the prompt words
and, per player, one numeric duration per word.  `fastest_words` walks the
word indices; for each word the inner loop of
`compute_fastest_words_for_each_player` scans the players with a strict
`<` comparison against a `math.inf` start (first player wins ties) and appends
the word to the chosen player list.  The accessors `time` and `get_word` can
fail on out-of-range indices (modelled with `Option`); mutation of the Python
list is modelled by `List.set` on the accumulator, the input match value being
untouched by construction. -/

/-- The match record `{"words": ..., "times": ...}` from cats.py. -/
structure Match : Type where
  words : List String
  times : List (List ℚ)

/-- `get_word(match, word_index)` from cats.py (asserts the index in range). -/
def get_word (m : Match) (word_index : Nat) : Option String :=
  m.words.get? word_index

/-- `time(match, player_num, word_index)` from cats.py: asserts
`word_index < len(words)` and `player_num < len(times)`, then indexes
`times[player_num][word_index]`. -/
def time (m : Match) (player_num word_index : Nat) : Option ℚ :=
  if word_index < m.words.length ∧ player_num < m.times.length then
    (m.times.getD player_num []).get? word_index
  else none

/-- `get_all_words` from cats.py. -/
def get_all_words (m : Match) : List String :=
  m.words

/-- `get_all_times` from cats.py. -/
def get_all_times (m : Match) : List (List ℚ) :=
  m.times

/-- The player loop inside `compute_fastest_words_for_each_player` from
cats.py: track the smallest time seen so far (starting from `math.inf`,
modelled `none`), the player index achieving it, and the word (set to
`get_word(match, word_index)` on every update). -/
def fastestScan (m : Match) (word_index : Nat) :
    List Nat → Option ℚ → Nat → String → Option (Nat × String)
  | [], _, player, word => some (player, word)
  | p :: ps, best, player, word =>
    match time m p word_index with
    | none => none
    | some t =>
      if best.all (fun v => decide (t < v)) then
        match get_word m word_index with
        | none => none
        | some w => fastestScan m word_index ps (some t) p w
      else fastestScan m word_index ps best player word

/-- `compute_fastest_words_for_each_player` from cats.py: run the player scan
and append the chosen word to the chosen player list
(`fastest_words_per_player[player].append(word)` fails when the list of
players is empty). -/
def compute_fastest_words_for_each_player (lists : List (List String)) (m : Match)
    (player_count word_index : Nat) : Option (List (List String)) :=
  match fastestScan m word_index (List.range player_count) none 0 "" with
  | none => none
  | some (player, word) =>
    if player < lists.length then
      some (lists.set player (lists.getD player [] ++ [word]))
    else none

/-- The word loop of `fastest_words` from cats.py. -/
def fastestWordsAux (m : Match) (player_count : Nat) :
    List Nat → List (List String) → Option (List (List String))
  | [], lists => some lists
  | i :: is, lists =>
    match compute_fastest_words_for_each_player lists m player_count i with
    | none => none
    | some lists2 => fastestWordsAux m player_count is lists2

/-- `fastest_words(match)` from cats.py. -/
def fastest_words (m : Match) : Option (List (List String)) :=
  fastestWordsAux m (get_all_times m).length (List.range (get_all_words m).length)
    (List.replicate (get_all_times m).length [])

/-- Specification-side column of per-player times for word `i`. -/
def colTimes (m : Match) (i : Nat) : List ℚ :=
  (List.range m.times.length).map (fun p => (m.times.getD p []).getD i 0)

/-- Specification-side choice of player for word `i`: the first player in
scan order whose time equals the minimum of the column. -/
def assignedPlayer (m : Match) (i : Nat) : Nat :=
  match listMin (colTimes m i) with
  | none => 0
  | some mn =>
    ((List.range m.times.length).find?
      (fun p => decide ((m.times.getD p []).getD i 0 = mn))).getD 0

/-- The per-player word lists obtained by assigning each word index in `done`
(in order) to its chosen player. -/
def buildLists (m : Match) (done : List Nat) : List (List String) :=
  (List.range m.times.length).map (fun p =>
    ((done.filter (fun i => assignedPlayer m i = p)).map (fun i => m.words.getD i "")))

/-- Specification-side result of `fastest_words`: one list per player; each
word index is assigned to exactly one player (the first with minimal time) and
words stay in prompt order. -/
def fastestSpec (m : Match) : List (List String) :=
  buildLists m (List.range m.words.length)

theorem time_eq (m : Match) (p i : Nat)
    (hwf : ∀ t ∈ m.times, t.length = m.words.length)
    (hp : p < m.times.length) (hi : i < m.words.length) :
    time m p i = some ((m.times.getD p []).getD i 0) := by
  rw [time, if_pos ⟨hi, hp⟩]
  have hrowmem : m.times.getD p [] ∈ m.times := by
    rw [List.getD_eq_getElem _ _ hp]
    exact List.getElem_mem hp
  have hrow : i < (m.times.getD p []).length := by
    rw [hwf _ hrowmem]
    exact hi
  rw [List.get?_eq_getElem?, List.getElem?_eq_getElem hrow,
    List.getD_eq_getElem _ _ hrow]

theorem get_word_eq (m : Match) (i : Nat) (hi : i < m.words.length) :
    get_word m i = some (m.words.getD i "") := by
  rw [get_word, List.get?_eq_getElem?, List.getElem?_eq_getElem hi,
    List.getD_eq_getElem _ _ hi]

theorem fastestScan_pure (m : Match) (i : Nat)
    (hwf : ∀ t ∈ m.times, t.length = m.words.length) (hi : i < m.words.length) :
    ∀ (ps : List Nat), (∀ p ∈ ps, p < m.times.length) → ∀ (best : Option ℚ) (pl : Nat),
      fastestScan m i ps best pl (m.words.getD i "") =
        some ((firstMinScan (fun p => (m.times.getD p []).getD i 0) ps best pl).1,
          m.words.getD i "") := by
  intro ps
  induction ps with
  | nil => intro _ best pl; rw [fastestScan, firstMinScan]
  | cons p ps ih =>
    intro hmem best pl
    rw [fastestScan, firstMinScan]
    simp only [time_eq m p i hwf (hmem p (List.mem_cons_self p ps)) hi,
      get_word_eq m i hi]
    by_cases hcond :
        best.all (fun v => decide ((m.times.getD p []).getD i 0 < v)) = true
    · rw [if_pos hcond, if_pos hcond]
      exact ih (fun q hq => hmem q (List.mem_cons_of_mem p hq)) (some _) p
    · rw [if_neg hcond, if_neg hcond]
      exact ih (fun q hq => hmem q (List.mem_cons_of_mem p hq)) best pl

theorem fastestScan_range (m : Match) (i : Nat)
    (hwf : ∀ t ∈ m.times, t.length = m.words.length) (hi : i < m.words.length)
    (hpc : 0 < m.times.length) :
    fastestScan m i (List.range m.times.length) none 0 "" =
      some ((firstMinScan (fun p => (m.times.getD p []).getD i 0)
        (List.range m.times.length) none 0).1, m.words.getD i "") := by
  obtain ⟨n, hn⟩ : ∃ n, m.times.length = n + 1 := ⟨m.times.length - 1, by omega⟩
  rw [hn, List.range_succ_eq_map]
  rw [fastestScan, firstMinScan]
  simp only [time_eq m 0 i hwf (by omega) hi, get_word_eq m i hi]
  by_cases hcond :
      Option.all (fun v => decide ((m.times.getD 0 []).getD i 0 < v)) none = true
  · rw [if_pos hcond, if_pos hcond]
    exact fastestScan_pure m i hwf hi _
      (fun q hq => by
        obtain ⟨r, hr, hq⟩ := List.mem_map.mp hq
        have := List.mem_range.mp hr
        omega)
      (some _) 0
  · exact absurd rfl hcond

theorem assignedPlayer_lt (m : Match) (i : Nat) (hpc : 0 < m.times.length) :
    assignedPlayer m i < m.times.length := by
  rw [assignedPlayer]
  cases hmin : listMin (colTimes m i) with
  | none => exact hpc
  | some mn =>
    show ((List.range m.times.length).find?
      (fun p => decide ((m.times.getD p []).getD i 0 = mn))).getD 0 < m.times.length
    cases hfind : (List.range m.times.length).find?
        (fun p => decide ((m.times.getD p []).getD i 0 = mn)) with
    | none => exact hpc
    | some p => exact List.mem_range.mp (List.mem_of_find?_eq_some hfind)

theorem assignedPlayer_eq_scan (m : Match) (i : Nat) (hpc : 0 < m.times.length) :
    (firstMinScan (fun p => (m.times.getD p []).getD i 0)
      (List.range m.times.length) none 0).1 = assignedPlayer m i := by
  cases hmin : listMin ((List.range m.times.length).map
      (fun p => (m.times.getD p []).getD i 0)) with
  | none =>
    exfalso
    have := listMin_eq_none _ hmin
    have hr : List.range m.times.length = [] := List.map_eq_nil.mp this
    rw [List.range_eq_nil] at hr
    omega
  | some mn =>
    have hfind2 : (List.range m.times.length).find?
        (fun p => decide ((m.times.getD p []).getD i 0 = mn)) =
        some ((firstMinScan (fun p => (m.times.getD p []).getD i 0)
          (List.range m.times.length) none 0).1) :=
      firstMinScan_fst (fun p => (m.times.getD p []).getD i 0)
        (List.range m.times.length) none 0 mn hmin (Or.inl rfl)
    rw [assignedPlayer]
    have hcol : colTimes m i = (List.range m.times.length).map
        (fun p => (m.times.getD p []).getD i 0) := rfl
    rw [hcol, hmin]
    show _ = ((List.range m.times.length).find?
      (fun p => decide ((m.times.getD p []).getD i 0 = mn))).getD 0
    rw [hfind2]
    rfl

theorem buildLists_length (m : Match) (done : List Nat) :
    (buildLists m done).length = m.times.length := by
  rw [buildLists, List.length_map, List.length_range]

theorem buildLists_getElem (m : Match) (done : List Nat) (q : Nat)
    (hq : q < m.times.length) :
    (buildLists m done)[q]? =
      some (((done.filter (fun i => assignedPlayer m i = q)).map
        (fun i => m.words.getD i ""))) := by
  rw [buildLists, List.getElem?_map, List.getElem?_range hq]
  rfl

theorem buildLists_snoc (m : Match) (done : List Nat) (i : Nat)
    (hap : assignedPlayer m i < m.times.length) :
    (buildLists m done).set (assignedPlayer m i)
      ((buildLists m done).getD (assignedPlayer m i) [] ++ [m.words.getD i ""]) =
      buildLists m (done ++ [i]) := by
  apply List.ext_getElem?
  intro q
  by_cases hq : q < m.times.length
  · by_cases hqa : q = assignedPlayer m i
    · rw [hqa]
      rw [List.getElem?_set_self
        (show assignedPlayer m i < (buildLists m done).length by
          rw [buildLists_length]; exact hap)]
      rw [buildLists_getElem m (done ++ [i]) (assignedPlayer m i) hap]
      have hgetD : (buildLists m done).getD (assignedPlayer m i) [] =
          (done.filter (fun j => assignedPlayer m j = assignedPlayer m i)).map
            (fun j => m.words.getD j "") := by
        have h2 := buildLists_getElem m done (assignedPlayer m i) hap
        rw [List.getD_eq_getElem _ _ (by rw [buildLists_length]; exact hap)]
        rw [List.getElem?_eq_getElem (by rw [buildLists_length]; exact hap)] at h2
        exact Option.some.inj h2
      rw [hgetD, List.filter_append, List.map_append]
      congr 2
      simp
    · rw [List.getElem?_set_ne (Ne.symm hqa)]
      rw [buildLists_getElem m done q hq, buildLists_getElem m (done ++ [i]) q hq]
      rw [List.filter_append]
      have hfi : ([i].filter (fun j => assignedPlayer m j = q)) = [] := by
        have hne2 : ¬ (assignedPlayer m i = q) := fun hc => hqa hc.symm
        simp [hne2]
      rw [hfi, List.append_nil]
  · have h1 : (buildLists m done).length ≤ q := by rw [buildLists_length]; omega
    have h2 : (buildLists m (done ++ [i])).length ≤ q := by rw [buildLists_length]; omega
    rw [List.getElem?_eq_none (by rw [List.length_set]; exact h1),
      List.getElem?_eq_none h2]

theorem compute_fastest_eq (m : Match) (i : Nat) (lists : List (List String))
    (hwf : ∀ t ∈ m.times, t.length = m.words.length) (hi : i < m.words.length)
    (hpc : 0 < m.times.length) (hlen : lists.length = m.times.length) :
    compute_fastest_words_for_each_player lists m m.times.length i =
      some (lists.set (assignedPlayer m i)
        (lists.getD (assignedPlayer m i) [] ++ [m.words.getD i ""])) := by
  rw [compute_fastest_words_for_each_player, fastestScan_range m i hwf hi hpc]
  show (if (firstMinScan _ (List.range m.times.length) none 0).1 < lists.length then _
    else none) = _
  rw [assignedPlayer_eq_scan m i hpc,
    if_pos (by rw [hlen]; exact assignedPlayer_lt m i hpc)]

theorem fastestWordsAux_spec (m : Match)
    (hwf : ∀ t ∈ m.times, t.length = m.words.length) :
    ∀ (is done : List Nat), (∀ i ∈ is, i < m.words.length) →
      (0 < m.times.length ∨ is = []) →
      fastestWordsAux m m.times.length is (buildLists m done) =
        some (buildLists m (done ++ is)) := by
  intro is
  induction is with
  | nil => intro done _ _; rw [fastestWordsAux, List.append_nil]
  | cons i is ih =>
    intro done hbound hne
    have hi : i < m.words.length := hbound i (List.mem_cons_self i is)
    have hpc : 0 < m.times.length := hne.resolve_right (by simp)
    rw [fastestWordsAux]
    rw [compute_fastest_eq m i (buildLists m done) hwf hi hpc (buildLists_length m done)]
    show fastestWordsAux m m.times.length is _ = _
    rw [buildLists_snoc m done i (assignedPlayer_lt m i hpc)]
    have := ih (done ++ [i]) (fun j hj => hbound j (List.mem_cons_of_mem i hj))
      (Or.inl hpc)
    rw [this, List.append_assoc]
    rfl

/-- C6 amended: for every well-formed match with at least one player (or an
empty prompt), `fastest_words` succeeds and returns one list per player in
which every word index is assigned to exactly one player — the first player in
scan order with the minimum time for that word — with words kept in their
original prompt order (and, the embedding being purely functional, the input
times are not mutated). -/
theorem fastest_words_correct (m : Match)
    (hwf : ∀ t ∈ m.times, t.length = m.words.length)
    (hne : m.times ≠ [] ∨ m.words = []) :
    fastest_words m = some (fastestSpec m) := by
  rw [fastest_words, get_all_times, get_all_words]
  have hrepl : List.replicate m.times.length ([] : List String) = buildLists m [] := by
    rw [buildLists]
    rw [show (fun p => ((List.filter (fun i => decide (assignedPlayer m i = p)) []).map
      (fun i => m.words.getD i ""))) = (fun _ : Nat => ([] : List String)) from rfl]
    rw [List.map_const', List.length_range]
  have h3 : 0 < m.times.length ∨ List.range m.words.length = [] := by
    rcases hne with hne | hne
    · exact Or.inl (List.length_pos.mpr hne)
    · exact Or.inr (by rw [hne, List.length_nil, List.range_zero])
  rw [hrepl]
  have := fastestWordsAux_spec m hwf (List.range m.words.length) []
    (fun i hi => List.mem_range.mp hi) h3
  rw [this, List.nil_append]
  rfl

/-- C6 counterexample: the match with one prompt word and zero players is
well-formed in the sense of the claim (every player time list — there are
none — has length `len(words)`), yet `fastest_words` does not return a result:
the inner loop leaves `player = 0` and the append indexes the empty player
list, an `IndexError` (modelled `none`). -/
theorem fastest_words_counterexample :
    (∀ t ∈ (Match.mk ["Just"] []).times, t.length = (Match.mk ["Just"] []).words.length) ∧
      fastest_words (Match.mk ["Just"] []) = none :=
  ⟨fun t ht => absurd ht (List.not_mem_nil t), rfl⟩

/-- Witness for the amended C6 at the doctest input: two players, three words,
result `[["have", "fun"], ["Just"]]` with the tie on word 1 going to the first
player. -/
theorem fastest_words_correct_witness :
    (∀ t ∈ (Match.mk ["Just", "have", "fun"] [[5, 1, 3], [4, 1, 6]]).times,
        t.length = (Match.mk ["Just", "have", "fun"] [[5, 1, 3], [4, 1, 6]]).words.length) ∧
      ((Match.mk ["Just", "have", "fun"] [[5, 1, 3], [4, 1, 6]] : Match).times ≠ [] ∨
        (Match.mk ["Just", "have", "fun"] [[5, 1, 3], [4, 1, 6]] : Match).words = []) ∧
      fastest_words (Match.mk ["Just", "have", "fun"] [[5, 1, 3], [4, 1, 6]]) =
        some [["have", "fun"], ["Just"]] := by
  refine ⟨by decide, Or.inl (by decide), ?_⟩
  rw [fastest_words_correct (Match.mk ["Just", "have", "fun"] [[5, 1, 3], [4, 1, 6]])
    (by decide) (Or.inl (by decide))]
  decide

end CatRacer
